import Mathlib

/-!
Verification of the exact any-to-any retrieval search-and-score engine of
mteb/evaluation/evaluators/Audio/Any2AnyRetrievalEvaluator.py.

The embedding below models:
* Any2AnyDenseRetrievalExactSearch.search (chunked brute-force top-k search,
  lines 104-267): corpus chunking, NaN coercion of the similarity matrix,
  per-chunk torch.topk selection, and the per-query bounded min-heap of
  (score, corpus_id) tuples maintained with heapq.heappush / heappushpop.
* Any2AnyDenseRetrievalExactSearch.load_results_file (lines 269-289).
* Any2AnyRetrievalEvaluator.__init__ / __call__ (lines 292-324).
* Any2AnyRetrievalEvaluator.evaluate (lines 326-420): the in-place
  ignore_identical_ids filtering, the trec-style per-query Recall@k of the
  delegated pytrec_eval call, and the CV_Recall@k computation from the
  score-sorted candidate lists.
* Any2AnyRetrievalEvaluator.calculate_cv_style_recall (lines 468-480).

Similarity scores are real numbers (floats) in the source; only their linear
order and equality matter to the properties proved here, so they are carried
as integers.  Heap elements are Python tuples (score, corpus_id), compared
lexicographically with the Python string order (code-point lexicographic),
which is modelled character by character below.
-/

namespace AnyToAny

open scoped List

/-- Python string comparison, a < b on the underlying character sequences:
strict code-point lexicographic order. -/
def charsLt : List Char → List Char → Prop
  | _, [] => False
  | [], _ :: _ => True
  | a :: as, b :: bs => a < b ∨ (a = b ∧ charsLt as bs)

instance charsLt.instDecidable : (l₁ l₂ : List Char) → Decidable (charsLt l₁ l₂)
  | [], [] => isFalse (fun h => h)
  | _ :: _, [] => isFalse (fun h => h)
  | [], _ :: _ => isTrue trivial
  | a :: as, b :: bs =>
      have : Decidable (charsLt as bs) := charsLt.instDecidable as bs
      inferInstanceAs (Decidable (_ ∨ _))

/-- Python string comparison a < b. -/
def strLt (a b : String) : Prop := charsLt a.data b.data

instance : DecidableRel strLt := fun a b => inferInstanceAs (Decidable (charsLt _ _))

/-- The Python tuple order (score, corpus_id) >= (score, corpus_id) used by
the result heaps: compare scores first, break ties by the string order on
corpus ids.  This is the reflexive "ranks at least as high" relation. -/
def tupleGe (a b : Int × String) : Prop :=
  b.1 < a.1 ∨ (a.1 = b.1 ∧ (a.2 = b.2 ∨ strLt b.2 a.2))

instance : DecidableRel tupleGe := fun a b =>
  inferInstanceAs (Decidable (_ ∨ _))

/-- Transitivity of the character-sequence order. -/
def charsLt_trans : ∀ u v w : List Char, charsLt u v → charsLt v w → charsLt u w := by
  intro u
  induction u with
  | nil =>
      intro v w huv hvw
      cases v with
      | nil => exact absurd huv (fun h => h)
      | cons b bs =>
        cases w with
        | nil => exact absurd hvw (fun h => h)
        | cons c cs => trivial
  | cons a as ih =>
      intro v w huv hvw
      cases v with
      | nil => exact absurd huv (fun h => h)
      | cons b bs =>
        cases w with
        | nil => exact absurd hvw (fun h => h)
        | cons c cs =>
          rcases huv with hab | ⟨hab, htail⟩
          · rcases hvw with hbc | ⟨hbc, _⟩
            · exact Or.inl (lt_trans hab hbc)
            · exact Or.inl (hbc ▸ hab)
          · rcases hvw with hbc | ⟨hbc, htail2⟩
            · exact Or.inl (hab ▸ hbc)
            · exact Or.inr ⟨hab.trans hbc, ih bs cs htail htail2⟩

/-- Trichotomy of the character-sequence order. -/
def charsLt_trichotomy : ∀ u v : List Char, charsLt u v ∨ u = v ∨ charsLt v u := by
  intro u
  induction u with
  | nil =>
      intro v
      cases v with
      | nil => exact Or.inr (Or.inl rfl)
      | cons b bs => exact Or.inl trivial
  | cons a as ih =>
      intro v
      cases v with
      | nil => exact Or.inr (Or.inr trivial)
      | cons b bs =>
        rcases lt_trichotomy a b with hab | hab | hab
        · exact Or.inl (Or.inl hab)
        · rcases ih bs with h | h | h
          · exact Or.inl (Or.inr ⟨hab, h⟩)
          · exact Or.inr (Or.inl (by rw [hab, h]))
          · exact Or.inr (Or.inr (Or.inr ⟨hab.symm, h⟩))
        · exact Or.inr (Or.inr (Or.inl hab))

/-- Asymmetry of the character-sequence order. -/
def charsLt_asymm : ∀ u v : List Char, charsLt u v → charsLt v u → False := by
  intro u
  induction u with
  | nil =>
      intro v huv hvu
      cases v with
      | nil => exact huv
      | cons b bs => exact hvu
  | cons a as ih =>
      intro v huv hvu
      cases v with
      | nil => exact huv
      | cons b bs =>
        rcases huv with hab | ⟨hab, htail⟩
        · rcases hvu with hba | ⟨hba, _⟩
          · exact absurd hab (lt_asymm hba)
          · exact absurd hab (by rw [hba]; exact lt_irrefl a)
        · rcases hvu with hba | ⟨hba, htail2⟩
          · exact absurd hba (by rw [hab]; exact lt_irrefl b)
          · exact ih bs htail htail2

instance : IsTrans (Int × String) tupleGe := by
  constructor
  intro a b c hab hbc
  rcases hab with h1 | ⟨h1, h1s⟩
  · rcases hbc with h2 | ⟨h2, _⟩
    · exact Or.inl (lt_trans h2 h1)
    · exact Or.inl (h2 ▸ h1)
  · rcases hbc with h2 | ⟨h2, h2s⟩
    · exact Or.inl (h1 ▸ h2)
    · refine Or.inr ⟨h1.trans h2, ?_⟩
      rcases h1s with he | hlt
      · rcases h2s with he2 | hlt2
        · exact Or.inl (he.trans he2)
        · exact Or.inr (by rw [he]; exact hlt2)
      · rcases h2s with he2 | hlt2
        · exact Or.inr (by rw [← he2]; exact hlt)
        · exact Or.inr (charsLt_trans _ _ _ hlt2 hlt)

instance : IsTotal (Int × String) tupleGe := by
  constructor
  intro a b
  rcases lt_trichotomy a.1 b.1 with h | h | h
  · exact Or.inr (Or.inl h)
  · rcases charsLt_trichotomy a.2.data b.2.data with hs | hs | hs
    · exact Or.inr (Or.inr ⟨h.symm, Or.inr hs⟩)
    · exact Or.inl (Or.inr ⟨h, Or.inl (String.ext hs)⟩)
    · exact Or.inl (Or.inr ⟨h, Or.inr hs⟩)
  · exact Or.inl (Or.inl h)

instance : IsAntisymm (Int × String) tupleGe := by
  constructor
  intro a b hab hba
  rcases hab with h1 | ⟨h1, h1s⟩
  · rcases hba with h2 | ⟨h2, _⟩
    · exact absurd h1 (lt_asymm h2)
    · exact absurd h1 (h2 ▸ lt_irrefl b.1)
  · rcases hba with h2 | ⟨h2, h2s⟩
    · exact absurd h2 (h1 ▸ lt_irrefl a.1)
    · have hsnd : a.2 = b.2 := by
        rcases h1s with he | hlt
        · exact he
        · rcases h2s with he2 | hlt2
          · exact he2.symm
          · exact (charsLt_asymm _ _ hlt hlt2).elim
      exact Prod.ext h1 hsnd

section TopKGeneric

variable {α : Type} (r : α → α → Prop) [DecidableRel r] [DecidableEq α]

/-- Sort a list into descending rank order by the relation r ("at least as
high as"); insertion sort is used as the canonical sort. -/
def descSort (l : List α) : List α := l.insertionSort r

/-- The k highest-ranked elements of a list: sort descending, take k. -/
def topSel (k : Nat) (l : List α) : List α := (descSort r l).take k

/-- Minimum of x :: l in rank order: the element every other element ranks
at least as high as (heap[0] of the Python heapq min-heap). -/
def minOf (x : α) (l : List α) : α :=
  l.foldl (fun m y => if r m y then y else m) x

/-- heapq.heappushpop h x: push x, then pop the minimum; returns the new heap
contents.  Modelled on contents: remove one copy of the minimum of x :: h. -/
def heappushpop (h : List α) (x : α) : List α :=
  (x :: h).erase (minOf r x h)

/-- One candidate arriving at a bounded heap of capacity k
(Any2AnyRetrievalEvaluator.py lines 258-261): heappush while below
capacity, otherwise heappushpop. -/
def heapStep (k : Nat) (h : List α) (x : α) : List α :=
  if h.length < k then x :: h else heappushpop r h x

/-- Feeding a stream of candidates through the bounded heap. -/
def heapFold (k : Nat) (h : List α) (xs : List α) : List α :=
  xs.foldl (heapStep r k) h

end TopKGeneric

section SearchModel

variable {Q D : Type}

/-- The data reaching Any2AnyDenseRetrievalExactSearch.search from the query
and corpus datasets and from the injected encoder model: the "id" and
"modality" columns of each side, and the composite encode-then-score map.
scorer f q d is the entry of the similarity matrix
score_functions[f](query_embeddings, sub_corpus_embeddings) for query q and
corpus item d; none models a NaN entry.  Encoders preserve item order and
produce one embedding per item, so the matrix entry is a function of the
query item and the corpus item, independent of the chunking. -/
structure SearchEnv (Q D : Type) where
  qid : Q → String
  qmodality : Q → String
  did : D → String
  dmodality : D → String
  scorer : String → Q → D → Option Int

/-- Line 240: sim_scores[torch.isnan(sim_scores)] = -1.  A NaN similarity
score is replaced by -1 before top-k selection. -/
def coerceNaN : Option Int → Int
  | none => -1
  | some s => s

/-- Contiguous chunking of the corpus (lines 182-188:
range(0, len(corpus), corpus_chunk_size) and the corresponding selects),
with the list length as structural fuel. -/
def chunkListAux (c : Nat) : Nat → List D → List (List D)
  | _, [] => []
  | 0, l => [l]
  | fuel + 1, x :: xs => ((x :: xs).take c) :: chunkListAux c fuel ((x :: xs).drop c)

/-- corpus split into contiguous chunks of size corpus_chunk_size. -/
def chunkList (c : Nat) (corpus : List D) : List (List D) :=
  chunkListAux c corpus.length corpus

/-- Row of the similarity matrix for query q against one chunk, NaN already
coerced (lines 237-240), and paired with the chunk ids (line 257). -/
def rowPairs (E : SearchEnv Q D) (sf : String) (q : Q) (chunk : List D) :
    List (Int × String) :=
  chunk.map (fun d => (coerceNaN (E.scorer sf q d), E.did d))

/-- Ranking of matrix-row entries by score alone, as torch.topk selects
(higher score first; ties kept in index order by the stable sort). -/
def rowGe (a b : Int × String) : Prop := b.1 ≤ a.1

instance : DecidableRel rowGe := fun a b => inferInstanceAs (Decidable (_ ≤ _))

/-- Lines 242-248: torch.topk over one matrix row picks the
min(top_k, chunk size) entries with the largest scores. -/
def chunkTopK (E : SearchEnv Q D) (sf : String) (top_k : Nat) (q : Q)
    (chunk : List D) : List (Int × String) :=
  ((rowPairs E sf q chunk).insertionSort rowGe).take (min top_k chunk.length)

/-- All candidates pushed on the heap of query q over the whole corpus scan,
in chunk order (the body of the loop at lines 182-261). -/
def queryCandidates (E : SearchEnv Q D) (sf : String) (top_k c : Nat) (q : Q)
    (corpus : List D) : List (Int × String) :=
  ((chunkList c corpus).map (chunkTopK E sf top_k q)).flatten

/-- Final contents of result_heaps[qid] after the corpus scan
(lines 181, 252-261). -/
def result_heap (E : SearchEnv Q D) (sf : String) (top_k c : Nat) (q : Q)
    (corpus : List D) : List (Int × String) :=
  heapFold tupleGe top_k [] (queryCandidates E sf top_k c q corpus)

/-- The ways search can raise before producing a ranking: the score-function
check at line 114, queries[0] at line 123 and corpus[0] at line 174 on an
empty dataset (Python IndexError), and the modality dispatch at lines
169-170 and 234-235. -/
inductive SearchErr where
  | unknownScoreFunction (name : String)
  | queriesIndexError
  | corpusIndexError
  | unsupportedModality (modality : String)
  deriving DecidableEq

/-- Any2AnyDenseRetrievalExactSearch.search (lines 104-267).  The corpus
modality check of line 234-235 is raised on the first chunk when the corpus
is nonempty, hence modelled as an upfront check after corpus[0] is read.
Heaps are drained into per-query id-to-score mappings (lines 263-265);
corpus ids are unique within the corpus, so the dict writes never collide
and the mapping is the association list of the heap contents. -/
def search (E : SearchEnv Q D) (corpus : List D) (queries : List Q)
    (top_k : Nat) (score_function : String) (corpus_chunk_size : Nat) :
    Except SearchErr (List (String × List (String × Int))) :=
  if score_function = "cos_sim" ∨ score_function = "dot" then
    match queries with
    | [] => .error .queriesIndexError
    | q0 :: _ =>
      if E.qmodality q0 = "text" ∨ E.qmodality q0 = "audio" ∨
          E.qmodality q0 = "audio,text" then
        match corpus with
        | [] => .error .corpusIndexError
        | d0 :: _ =>
          if E.dmodality d0 = "text" ∨ E.dmodality d0 = "audio" ∨
              E.dmodality d0 = "audio,text" then
            .ok (queries.map (fun q =>
              (E.qid q,
                (result_heap E score_function top_k corpus_chunk_size q corpus).map
                  (fun p => (p.2, p.1)))))
          else .error (.unsupportedModality (E.dmodality d0))
      else .error (.unsupportedModality (E.qmodality q0))
  else .error (.unknownScoreFunction score_function)

end SearchModel

section EvaluateModel

/-- Relevance judgments: query id to corpus id to integer grade, an
insertion-ordered mapping mirroring the Python dict. -/
abbrev Qrels := List (String × List (String × Int))

/-- A ranking: query id to corpus id to similarity score. -/
abbrev Ranking := List (String × List (String × Int))

/-- dict.get(key, default). -/
def lookupD {β : Type} (m : List (String × β)) (key : String) (dflt : β) : β :=
  (List.lookup key m).getD dflt

/-- Lines 340-345: with ignore_identical_ids, every candidate whose id equals
its query id is popped from results in place. -/
def stripSelf (results : Ranking) : Ranking :=
  results.map (fun qr => (qr.1, qr.2.filter (fun p => p.1 ≠ qr.1)))

/-- The ranking actually scored by evaluate, which is also the state of the
caller-owned results dict after evaluate returns (the filtering mutates the
argument in place). -/
def scoredResults (results : Ranking) (ignore_identical_ids : Bool) : Ranking :=
  if ignore_identical_ids then stripSelf results else results

/-- Python sorted(rels.items(), key=score, reverse=True), line 376: a stable
descending sort by score; candidates with equal scores keep their dict
insertion order. -/
def pyGe (a b : String × Int) : Prop := b.2 ≤ a.2

instance : DecidableRel pyGe := fun a b => inferInstanceAs (Decidable (_ ≤ _))

/-- The candidate list of one query in descending score order as evaluate
builds sorted_results. -/
def pySorted (rels : List (String × Int)) : List (String × Int) :=
  rels.insertionSort pyGe

/-- The ranked document ids used by the CV_Recall computation
(lines 375-385), after the optional skip_first_result pop of the single
highest-ranked candidate (lines 380-382). -/
def evalTopDocs (rels : List (String × Int)) (skip_first_result : Bool) :
    List String :=
  (if skip_first_result then (pySorted rels).drop 1 else pySorted rels).map Prod.fst

/-- Lines 386-396: per-query CV_Recall@k is 1.0 when the top-k ranked ids
intersect the set of ALL judged ids of the query (every key of qrels[qid],
whatever its grade), else 0.0. -/
def cv_recall_at (qr : List (String × Int)) (rels : List (String × Int))
    (k : Nat) (skip_first_result : Bool) : ℚ :=
  if ((evalTopDocs rels skip_first_result).take k).any
      (fun d => d ∈ qr.map Prod.fst) then 1 else 0

/-- The run ordering of the delegated trec-style evaluator (pytrec_eval,
binding canonical trec_eval semantics): descending score, ties broken by
document id in descending string order; this is exactly the tuple order on
(score, doc id).  Reflexive form. -/
def trecGe (a b : String × Int) : Prop := tupleGe (a.2, a.1) (b.2, b.1)

instance : DecidableRel trecGe := fun a b =>
  inferInstanceAs (Decidable (tupleGe _ _))

/-- A ranked run as trec_eval orders it. -/
def trecSorted (rels : List (String × Int)) : List (String × Int) :=
  rels.insertionSort trecGe

/-- Number of relevant (grade strictly positive) judged documents of one
query, the trec_eval num_rel. -/
def num_rel (qr : List (String × Int)) : Nat :=
  (qr.filter (fun p => 0 < p.2)).length

/-- Whether a retrieved document id is relevant for the query: judged with a
strictly positive grade. -/
def isRelevant (qr : List (String × Int)) (d : String) : Prop :=
  0 < lookupD qr d 0

instance : ∀ qr d, Decidable (isRelevant qr d) := fun qr d =>
  inferInstanceAs (Decidable (_ < _))

/-- Per-query trec Recall@k (the recall_k measure pytrec_eval returns,
line 391): relevant retrieved in the top k of the trec-ordered run divided
by num_rel; 0 when the query has no relevant document. -/
def recall_at (qr : List (String × Int)) (rels : List (String × Int))
    (k : Nat) : ℚ :=
  if num_rel qr = 0 then 0
  else (((trecSorted rels).take k).filter (fun p => isRelevant qr p.1)).length /
    (num_rel qr)

/-- scores.keys() of line 384: pytrec_eval returns one entry per query of the
evaluated run that also appears in qrels. -/
def evalQueryIds (qrels : Qrels) (results : Ranking)
    (ignore_identical_ids : Bool) : List String :=
  ((scoredResults results ignore_identical_ids).map Prod.fst).filter
    (fun q => (List.lookup q qrels).isSome)

/-- The per-query Recall@k value appended to all_recalls for query q
(line 391), computed from the post-filtering results. -/
def perQueryRecall (qrels : Qrels) (results : Ranking)
    (ignore_identical_ids : Bool) (k : Nat) (q : String) : ℚ :=
  recall_at (lookupD qrels q [])
    (lookupD (scoredResults results ignore_identical_ids) q []) k

/-- The per-query CV_Recall@k value appended to all_cv_recalls for query q
(lines 393-396), computed from the post-filtering results. -/
def perQueryCV (qrels : Qrels) (results : Ranking)
    (ignore_identical_ids skip_first_result : Bool) (k : Nat) (q : String) : ℚ :=
  cv_recall_at (lookupD qrels q [])
    (lookupD (scoredResults results ignore_identical_ids) q []) k
    skip_first_result

/-- The outputs of Any2AnyRetrievalEvaluator.evaluate that the verified
properties concern, plus the caller-visible final state of the results
argument.  nDCG, MAP and P are produced by the same delegated pytrec_eval
call and are not modelled; the reported means round to 5 decimals in the
source, which is not modelled either. -/
structure EvalOutput where
  results_after : Ranking
  query_ids : List String
  recall_per_query : List (Nat × List ℚ)
  cv_recall_per_query : List (Nat × List ℚ)
  recall_mean : List (Nat × ℚ)
  cv_recall_mean : List (Nat × ℚ)

/-- Any2AnyRetrievalEvaluator.evaluate (lines 326-420), restricted to the
Recall / CV_Recall metric families and the state of the results argument. -/
def evaluate (qrels : Qrels) (results : Ranking) (k_values : List Nat)
    (ignore_identical_ids : Bool) (skip_first_result : Bool) : EvalOutput :=
  let qids := evalQueryIds qrels results ignore_identical_ids
  let recalls := k_values.map (fun k =>
    (k, qids.map (perQueryRecall qrels results ignore_identical_ids k)))
  let cvs := k_values.map (fun k =>
    (k, qids.map (perQueryCV qrels results ignore_identical_ids
      skip_first_result k)))
  { results_after := scoredResults results ignore_identical_ids
    query_ids := qids
    recall_per_query := recalls
    cv_recall_per_query := cvs
    recall_mean := recalls.map (fun kl => (kl.1, kl.2.sum / (qids.length : ℚ)))
    cv_recall_mean := cvs.map (fun kl => (kl.1, kl.2.sum / (qids.length : ℚ))) }

/-- Any2AnyRetrievalEvaluator.calculate_cv_style_recall (lines 468-480):
iterates the queries of qrels; the retrieved documents are the FIRST k keys
of results[qid] in dict insertion order (no sorting); the value is 1.0 when
one of them is judged (any grade). -/
def calculate_cv_style_recall (qrels : Qrels) (results : Ranking) (k : Nat) :
    List (String × ℚ) :=
  qrels.map (fun qrq =>
    (qrq.1,
      if (((lookupD results qrq.1 []).map Prod.fst).take k).any
          (fun d => d ∈ qrq.2.map Prod.fst) then 1 else 0))

end EvaluateModel

section CallModel

/-- The state Any2AnyRetrievalEvaluator.__init__ (lines 293-309) leaves in
self.retriever: an Any2AnyDenseRetrievalExactSearch instance wrapping the
given retriever model, which may be absent (None). -/
structure ExactSearchState (M : Type) where
  model : Option M

/-- Line 303: the wrapper is constructed unconditionally, whether or not a
retriever model was provided. -/
def retrieverInit {M : Type} (retriever : Option M) : ExactSearchState M :=
  ⟨retriever⟩

/-- Python truthiness of an Any2AnyDenseRetrievalExactSearch instance: the
class defines neither a bool nor a len conversion, so every instance is
truthy. -/
def pyTruthy {M : Type} (s : ExactSearchState M) : Bool := true

/-- Outcome of entering Any2AnyRetrievalEvaluator.call: either the guard of
lines 316-317 raises, or self.retriever.search is invoked with whatever
model the wrapper holds. -/
inductive CallStart (M : Type) where
  | missingRetrieverError
  | searchInvoked (model : Option M)
  deriving DecidableEq

/-- Any2AnyRetrievalEvaluator.__call__ (lines 311-324): the guard tests the
truthiness of self.retriever (the always-constructed wrapper), then search
is started. -/
def anyToAnyCall {M : Type} (retriever : Option M) : CallStart M :=
  let selfRetriever : ExactSearchState M := retrieverInit retriever
  if pyTruthy selfRetriever = false then .missingRetrieverError
  else .searchInvoked selfRetriever.model

end CallModel

section CacheModel

/-- Parsed JSON values, as far as the shape checks of load_results_file can
distinguish them. -/
inductive Json where
  | obj (fields : List (String × Json))
  | arr (elems : List Json)
  | num (n : Int)
  | str (s : String)
  | bool (b : Bool)
  | null

/-- Whether a parsed value is a mapping (a Python dict). -/
def Json.isObj : Json → Bool
  | .obj _ => true
  | _ => false

/-- The shape the specification requires of a previous-results file: a
mapping whose every value is itself a mapping.  Stated from the
specification text, for comparison with what the code actually checks. -/
def Json.isMappingOfMappings : Json → Bool
  | .obj fields => fields.all (fun kv => kv.2.isObj)
  | _ => false

/-- Outcome of parsing and shape-checking a previous-results file
(lines 285-289), or of the unbound-variable path of line 283.  On ok the
function returns the parsed structure unchanged; the value itself is
recorded through LoadResult.readPath. -/
inductive LoadOutcome where
  | ok
  | assertionError
  | indexError
  | nameError
  deriving DecidableEq

/-- Lines 287-288: assert the parsed value is a dict, then assert that the
value under the FIRST key is a dict.  An empty dict raises IndexError at
list(keys())[0]; later values are never inspected. -/
def checkPreviousResults : Json → LoadOutcome
  | .obj [] => .indexError
  | .obj (kv :: _) => if kv.2.isObj then .ok else .assertionError
  | _ => .assertionError

/-- Whether a needle character sequence occurs in a haystack (the Python
substring test of line 270). -/
def containsSub (pat : List Char) : List Char → Bool
  | [] => pat.isEmpty
  | c :: rest => pat.isPrefixOf (c :: rest) || containsSub pat rest

/-- Python str.split on a nonempty separator, scanning left to right over
non-overlapping occurrences; list length as structural fuel. -/
def splitSegsAux (pat : List Char) : Nat → List Char → List (List Char)
  | _, [] => [[]]
  | 0, s => [s]
  | fuel + 1, c :: rest =>
      if pat.isPrefixOf (c :: rest) then
        [] :: splitSegsAux pat fuel ((c :: rest).drop pat.length)
      else
        match splitSegsAux pat fuel rest with
        | [] => [c :: rest]
        | seg :: segs => (c :: seg) :: segs

/-- Python s.split(pat). -/
def pySplit (pat s : List Char) : List (List Char) := splitSegsAux pat s.length s

/-- Python s.replace("/", "--"). -/
def pyReplaceSlash : List Char → List Char
  | [] => []
  | c :: rest =>
      if c = '/' then '-' :: '-' :: pyReplaceSlash rest
      else c :: pyReplaceSlash rest

/-- Lines 272-277: the deterministic local cache path derived from a remote
reference: the part after the scheme with path separators replaced, joined
under results/. -/
def derivedCachePath (url : String) : String :=
  "results/cached_predictions--" ++
    String.mk (pyReplaceSlash ((pySplit "https://".data url.data).getLastD url.data))

/-- The pieces of the environment load_results_file interacts with: which
paths exist on disk, and the parsed JSON content of each readable path
(after any download has completed). -/
structure CacheFS where
  pathExists : String → Bool
  parsed : String → Json

/-- A download performed by load_results_file: source reference and
destination path. -/
structure DownloadEvent where
  url : String
  dest : String
  deriving DecidableEq

/-- What one call to load_results_file did: the downloads it performed, the
local path it handed to json.load (none when it raised before reading), and
the outcome; on LoadOutcome.ok the returned ranking is the parsed content
of readPath. -/
structure LoadResult where
  downloads : List DownloadEvent
  readPath : Option String
  outcome : LoadOutcome
  deriving DecidableEq

/-- Any2AnyDenseRetrievalExactSearch.load_results_file (lines 269-289).
Line 271 tests os.path.exists on previous_results ITSELF (the remote
reference string), not on the derived cache path; when that test is true
the inner block is skipped and line 283 reads the never-assigned dest_file
local (Python NameError). -/
def load_results_file (fs : CacheFS) (previous_results : String) : LoadResult :=
  if containsSub "https://".data previous_results.data then
    if fs.pathExists previous_results = false then
      let dest := derivedCachePath previous_results
      ⟨[⟨previous_results, dest⟩], some dest, checkPreviousResults (fs.parsed dest)⟩
    else
      ⟨[], none, .nameError⟩
  else
    ⟨[], some previous_results, checkPreviousResults (fs.parsed previous_results)⟩

end CacheModel

section TopKLemmas

variable {α : Type} (r : α → α → Prop) [DecidableRel r] [DecidableEq α]

theorem minOf_cons (x y : α) (ys : List α) :
    minOf r x (y :: ys) = minOf r (if r x y then y else x) ys := rfl

theorem minOf_nil (x : α) : minOf r x [] = x := rfl

theorem minOf_mem : ∀ (l : List α) (x : α), minOf r x l ∈ x :: l := by
  intro l
  induction l with
  | nil => intro x; simp [minOf]
  | cons y ys ih =>
      intro x
      rw [minOf_cons]
      rcases List.mem_cons.mp (ih (if r x y then y else x)) with h | h
      · rw [h]
        by_cases hxy : r x y <;> simp [hxy]
      · simp [List.mem_cons, h]

theorem minOf_least [IsTotal α r] [IsTrans α r] :
    ∀ (l : List α) (x : α), ∀ b ∈ x :: l, r b (minOf r x l) := by
  have hrefl : ∀ a : α, r a a := fun a => (IsTotal.total (r := r) a a).elim id id
  intro l
  induction l with
  | nil =>
      intro x b hb
      rw [List.mem_singleton] at hb
      rw [hb, minOf_nil]
      exact hrefl x
  | cons y ys ih =>
      intro x b hb
      rw [minOf_cons]
      by_cases hxy : r x y
      · simp only [if_pos hxy]
        rcases List.mem_cons.mp hb with hbx | hb2
        · exact hbx ▸ Trans.trans hxy (ih y y (List.mem_cons_self y ys))
        · exact ih y b hb2
      · simp only [if_neg hxy]
        have hyx : r y x := ((IsTotal.total (r := r) x y).resolve_left hxy)
        rcases List.mem_cons.mp hb with hbx | hb2
        · exact hbx ▸ ih x x (List.mem_cons_self x ys)
        · rcases List.mem_cons.mp hb2 with hby | hb3
          · exact hby ▸ Trans.trans hyx (ih x x (List.mem_cons_self x ys))
          · exact ih x b (List.mem_cons_of_mem x hb3)

theorem minOf_unique [IsTotal α r] [IsTrans α r] [IsAntisymm α r]
    (x : α) (l : List α) (m : α) (hm : m ∈ x :: l)
    (hleast : ∀ b ∈ x :: l, r b m) : minOf r x l = m :=
  antisymm (hleast (minOf r x l) (minOf_mem r l x)) (minOf_least r l x m hm)

theorem minOf_congr [IsTotal α r] [IsTrans α r] [IsAntisymm α r]
    (x : α) {l₁ l₂ : List α} (h : l₁ ~ l₂) : minOf r x l₁ = minOf r x l₂ := by
  refine minOf_unique r x l₁ (minOf r x l₂) ?_ ?_
  · exact ((h.cons x).mem_iff).mpr (minOf_mem r l₂ x)
  · intro b hb
    exact minOf_least r l₂ x b (((h.cons x).mem_iff).mp hb)

theorem descSort_perm (l : List α) : descSort r l ~ l := List.perm_insertionSort r l

theorem descSort_sorted [IsTotal α r] [IsTrans α r] (l : List α) :
    List.Sorted r (descSort r l) := List.sorted_insertionSort r l

theorem sorted_perm_descSort_eq [IsTotal α r] [IsTrans α r] [IsAntisymm α r]
    {l l' : List α} (h : l' ~ l) (hs : List.Sorted r l') : l' = descSort r l :=
  List.eq_of_perm_of_sorted (h.trans (descSort_perm r l).symm) hs (descSort_sorted r l)

theorem descSort_congr [IsTotal α r] [IsTrans α r] [IsAntisymm α r]
    {l₁ l₂ : List α} (h : l₁ ~ l₂) : descSort r l₁ = descSort r l₂ :=
  sorted_perm_descSort_eq r ((descSort_perm r l₁).trans h) (descSort_sorted r l₁)

theorem descSort_of_sorted [IsTotal α r] [IsTrans α r] [IsAntisymm α r]
    {l : List α} (hs : List.Sorted r l) : descSort r l = l :=
  (sorted_perm_descSort_eq r (List.Perm.refl l) hs).symm

theorem topSel_congr [IsTotal α r] [IsTrans α r] [IsAntisymm α r]
    (k : Nat) {l₁ l₂ : List α} (h : l₁ ~ l₂) : topSel r k l₁ = topSel r k l₂ := by
  unfold topSel
  rw [descSort_congr r h]

theorem topSel_sorted [IsTotal α r] [IsTrans α r] (k : Nat) (l : List α) :
    List.Sorted r (topSel r k l) :=
  List.Pairwise.sublist (List.take_sublist k (descSort r l)) (descSort_sorted r l)

theorem topSel_idem [IsTotal α r] [IsTrans α r] [IsAntisymm α r]
    (k : Nat) (l : List α) : topSel r k (topSel r k l) = topSel r k l := by
  show (descSort r (topSel r k l)).take k = topSel r k l
  rw [descSort_of_sorted r (topSel_sorted r k l)]
  show ((descSort r l).take k).take k = (descSort r l).take k
  rw [List.take_take, min_self]

theorem topSel_length (k : Nat) (l : List α) : (topSel r k l).length ≤ k := by
  simp only [topSel, List.length_take]
  exact min_le_left _ _

theorem topSel_eq_of_perm [IsTotal α r] [IsTrans α r] [IsAntisymm α r]
    {k : Nat} {l₁ l₂ : List α} (h : topSel r k l₁ ~ topSel r k l₂) :
    topSel r k l₁ = topSel r k l₂ :=
  List.eq_of_perm_of_sorted h (topSel_sorted r k l₁) (topSel_sorted r k l₂)

theorem sorted_last_least [IsTotal α r] [IsTrans α r] {w : List α} {g : α}
    (hs : List.Sorted r (w ++ [g])) : ∀ b ∈ w ++ [g], r b g := by
  have hrefl : ∀ a : α, r a a := fun a => (IsTotal.total (r := r) a a).elim id id
  intro b hb
  rcases List.mem_append.mp hb with hbw | hbg
  · exact (List.pairwise_append.mp hs).2.2 b hbw g (List.mem_singleton_self g)
  · rw [List.mem_singleton.mp hbg]
    exact hrefl g

theorem erase_cons_of_mem {a m : α} {s : Multiset α} (hm : m ∈ s) :
    (a ::ₘ s).erase m = a ::ₘ s.erase m := by
  by_cases ham : m = a
  · subst ham
    rw [Multiset.erase_cons_head]
    exact (Multiset.cons_erase hm).symm
  · exact Multiset.erase_cons_tail s (fun h => ham h.symm)

theorem heappushpop_nil (x : α) : heappushpop r [] x = [] := by
  simp [heappushpop, minOf_nil, List.erase_cons_head]

theorem heapStep_zero (h : List α) (x : α) (hh : h = []) :
    heapStep r 0 h x = [] := by
  subst hh
  simp [heapStep, heappushpop_nil]

theorem heapStep_orderedInsert [IsTotal α r] [IsTrans α r] [IsAntisymm α r]
    (x : α) :
    ∀ (s : List α) (k : Nat), List.Sorted r s →
      heapStep r k (s.take k) x ~ (List.orderedInsert r x s).take k := by
  intro s
  induction s with
  | nil =>
      intro k _
      match k with
      | 0 => simp [heapStep_zero, List.orderedInsert]
      | j + 1 =>
          simp only [List.take_nil, List.orderedInsert]
          show heapStep r (j + 1) [] x ~ [x].take (j + 1)
          simp [heapStep]
  | cons a t ih =>
      intro k hsort
      have ha : ∀ b ∈ t, r a b := (List.sorted_cons.mp hsort).1
      have ht : List.Sorted r t := (List.sorted_cons.mp hsort).2
      match k with
      | 0 =>
          simp only [List.take_zero]
          simp [heapStep_zero]
      | j + 1 =>
          rw [List.take_succ_cons]
          show heapStep r (j + 1) (a :: t.take j) x ~
            (List.orderedInsert r x (a :: t)).take (j + 1)
          by_cases hxa : r x a
          · rw [List.orderedInsert, if_pos hxa, List.take_succ_cons]
            by_cases hjt : t.length < j
            · have htj : t.take j = t := List.take_of_length_le (le_of_lt hjt)
              have hcond : (a :: t.take j).length < j + 1 := by
                simp [htj]
                omega
              rw [heapStep, if_pos hcond, htj]
              have : (a :: t).take j = a :: t := by
                apply List.take_of_length_le
                simp
                omega
              rw [this]
            · push_neg at hjt
              have hlen : (a :: t.take j).length = j + 1 := by
                simp [List.length_take, min_eq_left hjt]
              have hcond : ¬ (a :: t.take j).length < j + 1 := by omega
              rw [heapStep, if_neg hcond]
              -- decompose a :: t.take j as w ++ [g]: the last element g is
              -- the minimum of the heap together with x
              have hjlt : j < (a :: t).length := by simp; omega
              have hdec : a :: t.take j = (a :: t).take j ++ [(a :: t).get ⟨j, hjlt⟩] := by
                rw [← List.take_succ_cons, List.take_succ]
                simp [List.getElem?_eq_getElem hjlt]
              set g := (a :: t).get ⟨j, hjlt⟩ with hg
              have hsortu : List.Sorted r ((a :: t).take j ++ [g]) := by
                rw [← hdec]
                exact List.Pairwise.sublist ((List.take_sublist j t).cons_cons a) hsort
              have hgmem : g ∈ a :: t := List.get_mem (a :: t) j hjlt
              have hxg : r x g := by
                rcases List.mem_cons.mp hgmem with h1 | h2
                · exact h1 ▸ hxa
                · exact Trans.trans hxa (ha g h2)
              have hmin : minOf r x (a :: t.take j) = g := by
                apply minOf_unique
                · rw [hdec]
                  exact List.mem_cons_of_mem x (by simp)
                · intro b hb
                  rcases List.mem_cons.mp hb with hbx | hbu
                  · exact hbx ▸ hxg
                  · rw [hdec] at hbu
                    exact sorted_last_least r hsortu b hbu
              show heappushpop r (a :: t.take j) x ~ x :: (a :: t).take j
              rw [heappushpop, hmin, hdec]
              have hgin : g ∈ x :: ((a :: t).take j ++ [g]) := by simp
              have h1 : x :: ((a :: t).take j ++ [g]) ~
                  g :: ((x :: ((a :: t).take j ++ [g])).erase g) :=
                List.perm_cons_erase hgin
              have h2 : x :: ((a :: t).take j ++ [g]) ~ g :: (x :: (a :: t).take j) :=
                ((List.perm_append_singleton g ((a :: t).take j)).cons x).trans
                  (List.Perm.swap g x ((a :: t).take j))
              exact (h1.symm.trans h2).cons_inv
          · rw [List.orderedInsert, if_neg hxa, List.take_succ_cons]
            by_cases hjt : t.length < j
            · have htj : t.take j = t := List.take_of_length_le (le_of_lt hjt)
              have hcond : (a :: t.take j).length < j + 1 := by
                simp [htj]; omega
              rw [heapStep, if_pos hcond, htj]
              have hoi : (List.orderedInsert r x t).take j = List.orderedInsert r x t := by
                apply List.take_of_length_le
                rw [List.orderedInsert_length]
                omega
              rw [hoi]
              exact (List.Perm.swap a x t).trans
                (((List.perm_orderedInsert r x t).symm).cons a)
            · push_neg at hjt
              have hlen : (a :: t.take j).length = j + 1 := by
                simp [List.length_take, min_eq_left hjt]
              have hcond : ¬ (a :: t.take j).length < j + 1 := by omega
              rw [heapStep, if_neg hcond]
              have hyx : r a x := ((IsTotal.total (r := r) x a).resolve_left hxa)
              have hmmem : minOf r x (t.take j) ∈ x :: t.take j :=
                minOf_mem r (t.take j) x
              have hmin : minOf r x (a :: t.take j) = minOf r x (t.take j) := by
                apply minOf_unique
                · rcases List.mem_cons.mp hmmem with h1 | h2
                  · rw [h1]; exact List.mem_cons_self x _
                  · exact List.mem_cons_of_mem x (List.mem_cons_of_mem a h2)
                · intro b hb
                  rcases List.mem_cons.mp hb with hbx | hb2
                  · exact hbx ▸ minOf_least r (t.take j) x x (List.mem_cons_self x _)
                  · rcases List.mem_cons.mp hb2 with hba | hb3
                    · subst hba
                      rcases List.mem_cons.mp hmmem with h1 | h2
                      · rw [h1]; exact hyx
                      · exact ha _ (List.take_subset j t h2)
                    · exact minOf_least r (t.take j) x b (List.mem_cons_of_mem x hb3)
              have hstep : heapStep r j (t.take j) x = heappushpop r (t.take j) x := by
                have : ¬ (t.take j).length < j := by
                  simp [List.length_take, min_eq_left hjt]
                rw [heapStep, if_neg this]
              have hih := ih j ht
              rw [hstep] at hih
              show heappushpop r (a :: t.take j) x ~
                a :: (List.orderedInsert r x t).take j
              refine List.Perm.trans ?_ (hih.cons a)
              rw [heappushpop, hmin]
              set m := minOf r x (t.take j) with hm
              have hmbig : m ∈ x :: a :: t.take j := by
                rcases List.mem_cons.mp hmmem with h1 | h2
                · rw [h1]; exact List.mem_cons_self x _
                · exact List.mem_cons_of_mem x (List.mem_cons_of_mem a h2)
              have h1 : x :: t.take j ~ m :: ((x :: t.take j).erase m) :=
                List.perm_cons_erase hmmem
              have h2 : x :: a :: t.take j ~ m :: ((x :: a :: t.take j).erase m) :=
                List.perm_cons_erase hmbig
              have hchain : x :: a :: t.take j ~ m :: (a :: ((x :: t.take j).erase m)) :=
                (List.Perm.swap a x (t.take j)).trans
                  ((h1.cons a).trans (List.Perm.swap m a ((x :: t.take j).erase m)))
              exact (h2.symm.trans hchain).cons_inv

theorem heapStep_congr [IsTotal α r] [IsTrans α r] [IsAntisymm α r]
    (k : Nat) {h₁ h₂ : List α} (x : α) (hp : h₁ ~ h₂) :
    heapStep r k h₁ x ~ heapStep r k h₂ x := by
  unfold heapStep heappushpop
  rw [hp.length_eq, minOf_congr r x hp]
  split
  · exact hp.cons x
  · exact (hp.cons x).erase _

theorem heapStep_topSel [IsTotal α r] [IsTrans α r] [IsAntisymm α r]
    (k : Nat) (x : α) (l : List α) :
    heapStep r k (topSel r k l) x ~ topSel r k (x :: l) :=
  heapStep_orderedInsert r x (descSort r l) k (descSort_sorted r l)

theorem heapFold_topSel_general [IsTotal α r] [IsTrans α r] [IsAntisymm α r]
    (k : Nat) :
    ∀ (xs l h : List α), h ~ topSel r k l →
      heapFold r k h xs ~ topSel r k (l ++ xs) := by
  intro xs
  induction xs with
  | nil =>
      intro l h hh
      simpa using hh
  | cons x xs ih =>
      intro l h hh
      show heapFold r k (heapStep r k h x) xs ~ _
      have h1 : heapStep r k h x ~ topSel r k (x :: l) :=
        (heapStep_congr r k x hh).trans (heapStep_topSel r k x l)
      have h2 := ih (x :: l) _ h1
      rwa [show topSel r k (x :: l ++ xs) = topSel r k (l ++ x :: xs) from
        topSel_congr r k (List.perm_middle.symm)] at h2

theorem heapFold_topSel [IsTotal α r] [IsTrans α r] [IsAntisymm α r]
    (k : Nat) (xs : List α) : heapFold r k [] xs ~ topSel r k xs :=
  heapFold_topSel_general r k xs [] []
    (by simp [topSel, descSort, List.insertionSort])

theorem topSel_append_topSel [IsTotal α r] [IsTrans α r] [IsAntisymm α r]
    (k : Nat) (l₁ l₂ : List α) :
    topSel r k (topSel r k l₁ ++ l₂) ~ topSel r k (l₁ ++ l₂) := by
  have hA := heapFold_topSel_general r k l₂ (topSel r k l₁) (topSel r k l₁)
    (by rw [topSel_idem])
  have hB := heapFold_topSel_general r k l₂ l₁ (topSel r k l₁) (List.Perm.refl _)
  exact hA.symm.trans hB

theorem topSel_flatten_topSel [IsTotal α r] [IsTrans α r] [IsAntisymm α r]
    (k : Nat) :
    ∀ L : List (List α),
      topSel r k ((L.map (topSel r k)).flatten) ~ topSel r k L.flatten := by
  intro L
  induction L with
  | nil => exact List.Perm.refl _
  | cons A L ih =>
      show topSel r k (topSel r k A ++ (L.map (topSel r k)).flatten) ~
        topSel r k (A ++ L.flatten)
      have ihEq : topSel r k ((L.map (topSel r k)).flatten) =
          topSel r k L.flatten := topSel_eq_of_perm r ih
      calc topSel r k (topSel r k A ++ (L.map (topSel r k)).flatten)
          ~ topSel r k (A ++ (L.map (topSel r k)).flatten) :=
            topSel_append_topSel r k A _
        _ = topSel r k ((L.map (topSel r k)).flatten ++ A) :=
            topSel_congr r k List.perm_append_comm
        _ ~ topSel r k (topSel r k ((L.map (topSel r k)).flatten) ++ A) :=
            (topSel_append_topSel r k _ A).symm
        _ = topSel r k (topSel r k L.flatten ++ A) := by rw [ihEq]
        _ ~ topSel r k (L.flatten ++ A) := topSel_append_topSel r k _ A
        _ = topSel r k (A ++ L.flatten) := topSel_congr r k List.perm_append_comm

theorem map_descSort_eq {β : Type} (s : β → β → Prop) [DecidableRel s]
    [DecidableEq β]
    [IsTotal α r] [IsTrans α r] [IsTotal β s] [IsTrans β s] [IsAntisymm β s]
    (f : α → β) (hmono : ∀ a b, r a b → s (f a) (f b)) (l : List α) :
    (descSort r l).map f = descSort s (l.map f) :=
  sorted_perm_descSort_eq s ((descSort_perm r l).map f)
    (List.Pairwise.map f hmono (descSort_sorted r l))

theorem map_topSel {β : Type} (s : β → β → Prop) [DecidableRel s]
    [DecidableEq β]
    [IsTotal α r] [IsTrans α r] [IsTotal β s] [IsTrans β s] [IsAntisymm β s]
    (f : α → β) (hmono : ∀ a b, r a b → s (f a) (f b)) (k : Nat) (l : List α) :
    (topSel r k l).map f = topSel s k (l.map f) := by
  unfold topSel
  rw [List.map_take, map_descSort_eq r s f hmono]

end TopKLemmas

section SearchLemmas

variable {Q D : Type}

/-- Shorthand for the descending order on integer scores. -/
def intGe (a b : Int) : Prop := b ≤ a

instance : DecidableRel intGe := fun a b => inferInstanceAs (Decidable (_ ≤ _))

instance : IsTrans Int intGe := ⟨fun _ _ _ h1 h2 => le_trans h2 h1⟩

instance : IsTotal Int intGe := ⟨fun a b => (le_total b a).elim Or.inl Or.inr⟩

instance : IsAntisymm Int intGe := ⟨fun _ _ h1 h2 => le_antisymm h2 h1⟩

instance : IsTrans (Int × String) rowGe :=
  ⟨fun _ _ _ h1 h2 => le_trans h2 h1⟩

instance : IsTotal (Int × String) rowGe :=
  ⟨fun a b => (le_total b.1 a.1).elim Or.inl Or.inr⟩

theorem tupleGe_fst_mono : ∀ a b : Int × String, tupleGe a b → intGe a.1 b.1 := by
  intro a b h
  rcases h with h | ⟨h, _⟩
  · exact le_of_lt h
  · exact le_of_eq h.symm

theorem rowGe_fst_mono : ∀ a b : Int × String, rowGe a b → intGe a.1 b.1 :=
  fun _ _ h => h

theorem rowPairs_map_fst (E : SearchEnv Q D) (sf : String) (q : Q)
    (chunk : List D) :
    (rowPairs E sf q chunk).map Prod.fst =
      chunk.map (fun d => coerceNaN (E.scorer sf q d)) := by
  rw [rowPairs, List.map_map]
  rfl

/-- Projecting the per-chunk torch.topk selection to scores gives the top-k
selection of the score row. -/
theorem chunkTopK_map_fst (E : SearchEnv Q D) (sf : String) (k : Nat) (q : Q)
    (chunk : List D) :
    (chunkTopK E sf k q chunk).map Prod.fst =
      topSel intGe k (chunk.map (fun d => coerceNaN (E.scorer sf q d))) := by
  show ((descSort rowGe (rowPairs E sf q chunk)).take (min k chunk.length)).map
      Prod.fst = _
  rw [List.map_take, map_descSort_eq rowGe intGe Prod.fst rowGe_fst_mono,
    rowPairs_map_fst]
  have hlen :
      (descSort intGe (chunk.map (fun d => coerceNaN (E.scorer sf q d)))).length
        = chunk.length := by
    rw [(descSort_perm intGe _).length_eq, List.length_map]
  rw [← hlen, ← List.take_take, List.take_length]
  rfl

/-- Scores retained by the heap of one query, stated for an arbitrary list
of chunks: the heap holds exactly the k highest coerced scores among all
items of those chunks. -/
theorem heap_scores_topSel (E : SearchEnv Q D) (sf : String) (k : Nat) (q : Q)
    (CL : List (List D)) :
    ((heapFold tupleGe k [] ((CL.map (chunkTopK E sf k q)).flatten)).map
        Prod.fst : List Int) ~
      topSel intGe k ((CL.flatten).map (fun d => coerceNaN (E.scorer sf q d))) := by
  have h1 : (heapFold tupleGe k [] ((CL.map (chunkTopK E sf k q)).flatten)).map
      Prod.fst ~
      (topSel tupleGe k ((CL.map (chunkTopK E sf k q)).flatten)).map Prod.fst :=
    (heapFold_topSel tupleGe k _).map Prod.fst
  rw [map_topSel tupleGe intGe Prod.fst tupleGe_fst_mono] at h1
  have h2 : ((CL.map (chunkTopK E sf k q)).flatten).map Prod.fst =
      ((CL.map (fun ch => ch.map (fun d => coerceNaN (E.scorer sf q d)))).map
        (topSel intGe k)).flatten := by
    rw [List.map_flatten, List.map_map, List.map_map]
    congr 1
    exact List.map_congr_left (fun ch _ => chunkTopK_map_fst E sf k q ch)
  rw [h2] at h1
  have h3 := topSel_flatten_topSel intGe k
    (CL.map (fun ch => ch.map (fun d => coerceNaN (E.scorer sf q d))))
  have h4 : ((CL.map (fun ch => ch.map (fun d => coerceNaN (E.scorer sf q d)))).flatten)
      = (CL.flatten).map (fun d => coerceNaN (E.scorer sf q d)) := by
    rw [List.map_flatten]
  rw [h4] at h3
  exact h1.trans h3

theorem chunkListAux_flatten (c : Nat) (hc : 1 ≤ c) :
    ∀ (fuel : Nat) (l : List D), l.length ≤ fuel →
      (chunkListAux c fuel l).flatten = l := by
  intro fuel
  induction fuel with
  | zero =>
      intro l hl
      cases l with
      | nil => rfl
      | cons a l => simp at hl
  | succ f ih =>
      intro l hl
      cases l with
      | nil => rfl
      | cons a l =>
          show (((a :: l).take c) :: chunkListAux c f ((a :: l).drop c)).flatten
            = a :: l
          rw [List.flatten_cons, ih ((a :: l).drop c)
            (by simp only [List.length_drop, List.length_cons] at hl ⊢; omega)]
          exact List.take_append_drop c (a :: l)

theorem chunkList_flatten (c : Nat) (hc : 1 ≤ c) (corpus : List D) :
    (chunkList c corpus).flatten = corpus :=
  chunkListAux_flatten c hc corpus.length corpus (le_refl _)

theorem chunkListAux_mem_subset (c : Nat) :
    ∀ (fuel : Nat) (l ch : List D), ch ∈ chunkListAux c fuel l → ch ⊆ l := by
  intro fuel
  induction fuel with
  | zero =>
      intro l ch hch
      cases l with
      | nil => simp [chunkListAux] at hch
      | cons a l =>
          rw [show chunkListAux c 0 (a :: l) = [a :: l] from rfl,
            List.mem_singleton] at hch
          exact hch ▸ List.Subset.refl _
  | succ f ih =>
      intro l ch hch
      cases l with
      | nil => simp [chunkListAux] at hch
      | cons a l =>
          rcases List.mem_cons.mp hch with h | h
          · exact h ▸ List.take_subset c (a :: l)
          · exact (ih _ ch h).trans (List.drop_subset c (a :: l))

theorem chunkList_mem_subset {c : Nat} {corpus ch : List D}
    (h : ch ∈ chunkList c corpus) : ch ⊆ corpus :=
  chunkListAux_mem_subset c corpus.length corpus ch h

/-- Every candidate ever pushed on the heap of query q is a
(coerced score, corpus id) pair of an item of the corpus. -/
theorem queryCandidates_mem {E : SearchEnv Q D} {sf : String} {k c : Nat}
    {q : Q} {corpus : List D} {p : Int × String}
    (hp : p ∈ queryCandidates E sf k c q corpus) :
    ∃ d ∈ corpus, p = (coerceNaN (E.scorer sf q d), E.did d) := by
  rcases List.mem_flatten.mp hp with ⟨sel, hsel, hpsel⟩
  rcases List.mem_map.mp hsel with ⟨ch, hch, rfl⟩
  have hrow : p ∈ rowPairs E sf q ch := by
    have h1 : p ∈ descSort rowGe (rowPairs E sf q ch) :=
      List.take_subset _ _ hpsel
    exact (descSort_perm rowGe _).subset h1
  rcases List.mem_map.mp hrow with ⟨d, hd, rfl⟩
  exact ⟨d, chunkList_mem_subset hch hd, rfl⟩

/-- A successful search returns exactly the drained per-query heaps, keyed
by query id. -/
theorem search_ok_elim {E : SearchEnv Q D} {corpus : List D} {queries : List Q}
    {top_k : Nat} {sf : String} {c : Nat}
    {r : List (String × List (String × Int))}
    (h : search E corpus queries top_k sf c = .ok r) :
    r = queries.map (fun q =>
      (E.qid q, (result_heap E sf top_k c q corpus).map (fun p => (p.2, p.1)))) := by
  cases queries with
  | nil =>
      simp only [search] at h
      split at h <;> simp at h
  | cons q0 qs =>
      cases corpus with
      | nil =>
          simp only [search] at h
          split at h
          · split at h <;> simp at h
          · simp at h
      | cons d0 ds =>
          simp only [search] at h
          split at h
          · split at h
            · split at h
              · exact (Except.ok.inj h).symm
              · simp at h
            · simp at h
          · simp at h

end SearchLemmas

section ClaimSearch

variable {Q D : Type}

/-- Claim C1: for every corpus, query set, top_k at least 1, registered
score function and chunk size at least 1, search returns at most top_k
entries per query; the multiset of scores returned per query is the same
for every chunk size; and after each processed chunk the per-query heap
holds exactly the top_k highest coerced scores seen so far across all
processed chunks. -/
theorem search_topk_bound_and_chunk_size_invariance
    (E : SearchEnv Q D) (corpus : List D) (queries : List Q)
    (top_k c₁ c₂ : Nat) (sf : String)
    (r₁ r₂ : List (String × List (String × Int)))
    (hk : 1 ≤ top_k) (hc₁ : 1 ≤ c₁) (hc₂ : 1 ≤ c₂)
    (h₁ : search E corpus queries top_k sf c₁ = .ok r₁)
    (h₂ : search E corpus queries top_k sf c₂ = .ok r₂) :
    (∀ e ∈ r₁, e.2.length ≤ top_k) ∧
    (r₁.map (fun e => (e.1, ((e.2.map Prod.snd : List Int) : Multiset Int))) =
      r₂.map (fun e => (e.1, ((e.2.map Prod.snd : List Int) : Multiset Int)))) ∧
    (∀ q ∈ queries, ∀ j : Nat,
      ((heapFold tupleGe top_k []
          ((((chunkList c₁ corpus).take j).map (chunkTopK E sf top_k q)).flatten)).map
          Prod.fst : List Int) ~
        topSel intGe top_k
          ((((chunkList c₁ corpus).take j).flatten).map
            (fun d => coerceNaN (E.scorer sf q d)))) := by
  have hr₁ := search_ok_elim h₁
  have hr₂ := search_ok_elim h₂
  refine ⟨?_, ?_, ?_⟩
  · intro e he
    rw [hr₁] at he
    rcases List.mem_map.mp he with ⟨q, hq, rfl⟩
    show ((result_heap E sf top_k c₁ q corpus).map (fun p => (p.2, p.1))).length ≤ top_k
    rw [List.length_map]
    exact le_trans
      (le_of_eq (heapFold_topSel tupleGe top_k
        (queryCandidates E sf top_k c₁ q corpus)).length_eq)
      (topSel_length tupleGe top_k _)
  · rw [hr₁, hr₂, List.map_map, List.map_map]
    refine List.map_congr_left (fun q _ => ?_)
    have hmul : ∀ c : Nat, 1 ≤ c →
        (((result_heap E sf top_k c q corpus).map (fun p => (p.2, p.1))).map
          Prod.snd : Multiset Int) =
        ↑(topSel intGe top_k (corpus.map (fun d => coerceNaN (E.scorer sf q d)))) := by
      intro c hc
      have h := heap_scores_topSel E sf top_k q (chunkList c corpus)
      rw [chunkList_flatten c hc] at h
      have hswap : ((result_heap E sf top_k c q corpus).map
          (fun p => (p.2, p.1))).map Prod.snd =
          (result_heap E sf top_k c q corpus).map Prod.fst := by
        rw [List.map_map]
        rfl
      rw [hswap]
      exact Multiset.coe_eq_coe.mpr h
    simp only [Function.comp]
    rw [hmul c₁ hc₁, hmul c₂ hc₂]
  · intro q _ j
    exact heap_scores_topSel E sf top_k q ((chunkList c₁ corpus).take j)

/-- Concrete run of the C1 theorem: a three-item corpus with a tied score
and a NaN entry, searched with chunk sizes 1 and 3. -/
theorem search_topk_bound_and_chunk_size_invariance_witness :
    (∀ e ∈ [("q1", [("c", (3 : Int)), ("a", 3)])], e.2.length ≤ 2) ∧
    ([("q1", [("c", (3 : Int)), ("a", 3)])].map
        (fun e => (e.1, ((e.2.map Prod.snd : List Int) : Multiset Int))) =
      [("q1", [("c", (3 : Int)), ("a", 3)])].map
        (fun e => (e.1, ((e.2.map Prod.snd : List Int) : Multiset Int)))) ∧
    (∀ q ∈ [()], ∀ j : Nat,
      ((heapFold tupleGe 2 []
          ((((chunkList 1 ["a", "b", "c"]).take j).map
            (chunkTopK ⟨fun _ => "q1", fun _ => "text", fun s => s, fun _ => "text",
              fun _ _ d => if d = "b" then none else some 3⟩ "cos_sim" 2 q)).flatten)).map
          Prod.fst : List Int) ~
        topSel intGe 2
          ((((chunkList 1 ["a", "b", "c"]).take j).flatten).map
            (fun d => coerceNaN
              ((fun _ (d : String) => if d = "b" then none else some (3 : Int)) q d)))) :=
  search_topk_bound_and_chunk_size_invariance
    ⟨fun _ => "q1", fun _ => "text", fun s => s, fun _ => "text",
      fun _ _ d => if d = "b" then none else some 3⟩
    ["a", "b", "c"] [()] 2 1 3 "cos_sim" _ _
    (by omega) (by omega) (by omega) rfl rfl

/-- Claim C2 is false on the code: with a non-empty query set and an empty
corpus, search raises at the corpus[0] modality read of line 174 (a Python
IndexError) instead of returning a Ranking that maps every query id to an
empty score mapping. -/
theorem search_empty_corpus_counterexample :
    search (Q := Unit) (D := String)
        ⟨fun _ => "q1", fun _ => "text", fun s => s, fun _ => "text",
          fun _ _ _ => some 0⟩ [] [()] 10 "cos_sim" 20000 =
      .error .corpusIndexError ∧
    search (Q := Unit) (D := String)
        ⟨fun _ => "q1", fun _ => "text", fun s => s, fun _ => "text",
          fun _ _ _ => some 0⟩ [] [()] 10 "cos_sim" 20000 ≠
      .ok [("q1", [])] := by
  refine ⟨rfl, ?_⟩
  intro hcontra
  exact Except.noConfusion hcontra

/-- Claim C2 (amended): for every non-empty query set whose modality is
supported and every registered score function, calling search with an empty
corpus does not return a Ranking: it fails with the corpus index error
raised by reading corpus[0]. -/
theorem search_empty_corpus_raises (E : SearchEnv Q D) (q0 : Q) (qs : List Q)
    (top_k c : Nat) (sf : String)
    (hsf : sf = "cos_sim" ∨ sf = "dot")
    (hqm : E.qmodality q0 = "text" ∨ E.qmodality q0 = "audio" ∨
      E.qmodality q0 = "audio,text") :
    search E [] (q0 :: qs) top_k sf c = .error .corpusIndexError := by
  simp only [search, if_pos hsf, if_pos hqm]

/-- Concrete run of the amended C2 theorem. -/
theorem search_empty_corpus_raises_witness :
    search (Q := Unit) (D := String)
        ⟨fun _ => "q1", fun _ => "text", fun s => s, fun _ => "text",
          fun _ _ _ => some 0⟩ [] [()] 10 "cos_sim" 20000 =
      .error .corpusIndexError :=
  search_empty_corpus_raises
    ⟨fun _ => "q1", fun _ => "text", fun s => s, fun _ => "text",
      fun _ _ _ => some 0⟩ () [] 10 20000 "cos_sim" (Or.inl rfl) (Or.inl rfl)

/-- Claim C5: a NaN similarity entry is coerced to -1 (coerceNaN none = -1)
before top-k selection, so NaN scores never make search fail and never
appear in the returned Ranking: every returned score is the coerced score
of some corpus item against the query. -/
theorem search_nan_coerced_scores (E : SearchEnv Q D) (corpus : List D)
    (queries : List Q) (top_k : Nat) (sf : String) (c : Nat)
    (r : List (String × List (String × Int)))
    (h : search E corpus queries top_k sf c = .ok r) :
    coerceNaN none = -1 ∧
    ∀ e ∈ r, ∃ q ∈ queries, E.qid q = e.1 ∧
      ∀ p ∈ e.2, ∃ d ∈ corpus, E.did d = p.1 ∧ p.2 = coerceNaN (E.scorer sf q d) := by
  refine ⟨rfl, ?_⟩
  intro e he
  rw [search_ok_elim h] at he
  rcases List.mem_map.mp he with ⟨q, hq, rfl⟩
  refine ⟨q, hq, rfl, ?_⟩
  intro p hp
  rcases List.mem_map.mp hp with ⟨pr, hpr, rfl⟩
  have hmem : pr ∈ queryCandidates E sf top_k c q corpus := by
    have h1 : pr ∈ topSel tupleGe top_k (queryCandidates E sf top_k c q corpus) :=
      (heapFold_topSel tupleGe top_k _).mem_iff.mp hpr
    exact (descSort_perm tupleGe _).subset (List.take_subset _ _ h1)
  rcases queryCandidates_mem hmem with ⟨d, hd, rfl⟩
  exact ⟨d, hd, rfl, rfl⟩

/-- Concrete run of the C5 theorem: the corpus item with a NaN score shows
up with score -1 when retained, and every returned score is a coerced
matrix entry. -/
theorem search_nan_coerced_scores_witness :
    coerceNaN none = -1 ∧
    ∀ e ∈ [("q1", [("c", (3 : Int)), ("a", 3)])], ∃ q ∈ [()], "q1" = e.1 ∧
      ∀ p ∈ e.2, ∃ d ∈ ["a", "b", "c"], d = p.1 ∧
        p.2 = coerceNaN (if d = "b" then none else some (3 : Int)) :=
  search_nan_coerced_scores
    ⟨fun _ => "q1", fun _ => "text", fun s => s, fun _ => "text",
      fun _ _ d => if d = "b" then none else some 3⟩
    ["a", "b", "c"] [()] 2 "cos_sim" 1 _ rfl

end ClaimSearch

section EvaluateLemmas

instance : IsTrans (String × Int) pyGe := ⟨fun _ _ _ h1 h2 => le_trans h2 h1⟩

instance : IsTotal (String × Int) pyGe :=
  ⟨fun a b => (le_total b.2 a.2).elim Or.inl Or.inr⟩

instance : IsTrans (String × Int) trecGe :=
  ⟨fun a b c h1 h2 =>
    IsTrans.trans (r := tupleGe) (a.2, a.1) (b.2, b.1) (c.2, c.1) h1 h2⟩

instance : IsTotal (String × Int) trecGe :=
  ⟨fun a b => IsTotal.total (r := tupleGe) (a.2, a.1) (b.2, b.1)⟩

theorem trecGe_imp_pyGe {a b : String × Int} (h : trecGe a b) : pyGe a b :=
  tupleGe_fst_mono (a.2, a.1) (b.2, b.1) h

theorem trecSorted_score_sorted (rels : List (String × Int)) :
    List.Sorted pyGe (trecSorted rels) :=
  List.Pairwise.imp trecGe_imp_pyGe (List.sorted_insertionSort trecGe rels)

theorem pySorted_score_sorted (rels : List (String × Int)) :
    List.Sorted pyGe (pySorted rels) :=
  List.sorted_insertionSort pyGe rels

/-- Two score-sorted permutations of one candidate list with pairwise
distinct scores are equal: the tie-break order is irrelevant without ties. -/
theorem sorted_perm_eq_of_scores_nodup :
    ∀ {l₁ l₂ : List (String × Int)}, l₁ ~ l₂ →
      List.Sorted pyGe l₁ → List.Sorted pyGe l₂ →
      (l₁.map Prod.snd).Nodup → l₁ = l₂ := by
  intro l₁
  induction l₁ with
  | nil =>
      intro l₂ hp _ _ _
      exact (List.Perm.eq_nil hp.symm).symm
  | cons a t ih =>
      intro l₂ hp hs₁ hs₂ hnd
      cases l₂ with
      | nil => exact absurd (List.Perm.eq_nil hp) (by simp)
      | cons b t₂ =>
          have hndh : a.2 ∉ t.map Prod.snd := by
            rw [List.map_cons, List.nodup_cons] at hnd
            exact hnd.1
          have hab : a = b := by
            have hamem : a ∈ b :: t₂ := hp.subset (List.mem_cons_self a t)
            have hbmem : b ∈ a :: t := hp.symm.subset (List.mem_cons_self b t₂)
            rcases List.mem_cons.mp hamem with h1 | h2
            · exact h1
            · rcases List.mem_cons.mp hbmem with h3 | h4
              · exact h3.symm
              · have hba : a.2 ≤ b.2 := (List.sorted_cons.mp hs₂).1 a h2
                have hab2 : b.2 ≤ a.2 := (List.sorted_cons.mp hs₁).1 b h4
                have heq : a.2 = b.2 := le_antisymm hba hab2
                exact absurd (List.mem_map.mpr ⟨b, h4, heq.symm⟩) hndh
          subst hab
          have htl : t = t₂ := by
            refine ih hp.cons_inv (List.sorted_cons.mp hs₁).2
              (List.sorted_cons.mp hs₂).2 ?_
            rw [List.map_cons, List.nodup_cons] at hnd
            exact hnd.2
          rw [htl]

/-- Without score ties the trec_eval run ordering and the Python stable
descending sort coincide. -/
theorem trecSorted_eq_pySorted (rels : List (String × Int))
    (hnd : (rels.map Prod.snd).Nodup) : trecSorted rels = pySorted rels := by
  refine sorted_perm_eq_of_scores_nodup
    ((List.perm_insertionSort trecGe rels).trans
      (List.perm_insertionSort pyGe rels).symm)
    (trecSorted_score_sorted rels) (pySorted_score_sorted rels) ?_
  exact (((List.perm_insertionSort trecGe rels).map Prod.snd).nodup_iff).mpr hnd

theorem lookup_some_mem_map_fst {β : Type} {key : String} {l : List (String × β)}
    {v : β} (h : List.lookup key l = some v) : key ∈ l.map Prod.fst := by
  induction l with
  | nil => simp [List.lookup] at h
  | cons kv t ih =>
      cases kv with
      | mk k b =>
          simp only [List.lookup] at h
          split at h
          · rename_i heq
            exact List.mem_cons.mpr (Or.inl (eq_of_beq heq))
          · exact List.mem_cons_of_mem _ (ih h)

/-- stripSelf is the identity exactly when no query lists its own id among
its candidates. -/
theorem stripSelf_eq_self_iff (results : Ranking) :
    stripSelf results = results ↔ ∀ e ∈ results, ∀ p ∈ e.2, p.1 ≠ e.1 := by
  induction results with
  | nil => simp [stripSelf]
  | cons e t ih =>
      rw [stripSelf, List.map_cons]
      constructor
      · intro h
        obtain ⟨hhead, htail⟩ := List.cons_eq_cons.mp h
        intro e2 he2
        rcases List.mem_cons.mp he2 with rfl | hmem
        · intro p hp
          have hfil : e2.2.filter (fun p => p.1 ≠ e2.1) = e2.2 :=
            congrArg Prod.snd hhead
          have := (List.filter_eq_self.mp hfil) p hp
          simpa using this
        · exact (ih.mp htail) e2 hmem
      · intro h
        have hfil : e.2.filter (fun p => p.1 ≠ e.1) = e.2 :=
          List.filter_eq_self.mpr (fun p hp => by
            simpa using h e (List.mem_cons_self e t) p hp)
        rw [hfil]
        show (e.1, e.2) :: stripSelf t = e :: t
        rw [ih.mpr (fun e2 he2 => h e2 (List.mem_cons_of_mem e he2))]

end EvaluateLemmas

section ClaimEvaluate

/-- Claim C3 is false on the code as universally stated: on tied scores the
trec evaluator ranks candidates by descending doc id while the CV_Recall
sort is stable in dict insertion order, so per-query Recall@1 can be
positive while per-query CV_Recall@1 is 0 (not 1.0). -/
theorem recall_pos_cv_counterexample :
    0 < perQueryRecall [("q1", [("d2", 1)])]
        [("q1", [("d1", 5), ("d2", 5)])] false 1 "q1" ∧
    perQueryCV [("q1", [("d2", 1)])]
        [("q1", [("d1", 5), ("d2", 5)])] false false 1 "q1" = 0 := by
  constructor
  · show 0 < recall_at [("d2", (1 : Int))] [("d1", (5 : Int)), ("d2", 5)] 1
    rw [recall_at, if_neg (by decide)]
    apply div_pos
    · have : (0 : ℕ) <
          ((((trecSorted [("d1", (5 : Int)), ("d2", 5)]).take 1).filter
            (fun p => isRelevant [("d2", (1 : Int))] p.1)).length) := by decide
      exact_mod_cast this
    · have : (0 : ℕ) < num_rel [("d2", (1 : Int))] := by decide
      exact_mod_cast this
  · show cv_recall_at [("d2", (1 : Int))] [("d1", (5 : Int)), ("d2", 5)] 1 false = 0
    rw [cv_recall_at, if_neg (by decide)]

/-- Claim C3 (amended): with ignore_identical_ids and skip_first_result
both false, and provided the query has no two candidates with equal scores,
a strictly positive per-query Recall@k forces per-query CV_Recall@k = 1.0. -/
theorem recall_pos_implies_cv_one (qrels : Qrels) (results : Ranking)
    (k : Nat) (q : String)
    (hnd : ((lookupD results q []).map Prod.snd).Nodup)
    (hrec : 0 < perQueryRecall qrels results false k q) :
    perQueryCV qrels results false false k q = 1 := by
  have hsc : scoredResults results false = results := rfl
  rw [perQueryRecall, hsc, recall_at] at hrec
  by_cases h0 : num_rel (lookupD qrels q []) = 0
  · rw [if_pos h0] at hrec
    exact absurd hrec (lt_irrefl 0)
  · rw [if_neg h0] at hrec
    have hcount : 0 <
        (((trecSorted (lookupD results q [])).take k).filter
          (fun p => isRelevant (lookupD qrels q []) p.1)).length := by
      by_contra hc
      push_neg at hc
      rw [Nat.le_zero.mp hc] at hrec
      norm_num at hrec
    obtain ⟨p, hpmem⟩ := List.exists_mem_of_length_pos hcount
    have hp1 : p ∈ (trecSorted (lookupD results q [])).take k :=
      (List.mem_filter.mp hpmem).1
    have hp2 : isRelevant (lookupD qrels q []) p.1 :=
      of_decide_eq_true (List.mem_filter.mp hpmem).2
    rw [trecSorted_eq_pySorted _ hnd] at hp1
    have hjud : p.1 ∈ (lookupD qrels q []).map Prod.fst := by
      cases hl : List.lookup p.1 (lookupD qrels q []) with
      | none =>
          rw [isRelevant, lookupD, hl] at hp2
          exact absurd hp2 (by simp)
      | some v => exact lookup_some_mem_map_fst hl
    rw [perQueryCV, hsc, cv_recall_at, if_pos ?_]
    refine List.any_eq_true.mpr ⟨p.1, ?_, decide_eq_true hjud⟩
    show p.1 ∈ ((if false then (pySorted (lookupD results q [])).drop 1
      else pySorted (lookupD results q [])).map Prod.fst).take k
    rw [if_neg (by simp), ← List.map_take]
    exact List.mem_map_of_mem Prod.fst hp1

/-- Concrete run of the amended C3 theorem: distinct scores, a relevant
document at rank 1, per-query CV_Recall@1 = 1. -/
theorem recall_pos_implies_cv_one_witness :
    perQueryCV [("q1", [("d1", 1)])] [("q1", [("d1", 7), ("d2", 3)])]
      false false 1 "q1" = 1 :=
  recall_pos_implies_cv_one [("q1", [("d1", 1)])]
    [("q1", [("d1", 7), ("d2", 3)])] 1 "q1" (by decide)
    (by
      show 0 < recall_at [("d1", (1 : Int))] [("d1", (7 : Int)), ("d2", 3)] 1
      rw [recall_at, if_neg (by decide)]
      apply div_pos
      · have : (0 : ℕ) <
            ((((trecSorted [("d1", (7 : Int)), ("d2", 3)]).take 1).filter
              (fun p => isRelevant [("d1", (1 : Int))] p.1)).length) := by decide
        exact_mod_cast this
      · have : (0 : ℕ) < num_rel [("d1", (1 : Int))] := by decide
        exact_mod_cast this)

/-- Claim C4: with ignore_identical_ids=True, every candidate whose id
equals its query id is removed from the ranking that evaluate scores (the
same filtered mapping feeds the trec evaluator, the CV_Recall loop and the
abstention analysis), and no other candidate is dropped. -/
theorem evaluate_ignores_identical_ids (qrels : Qrels) (results : Ranking)
    (k_values : List Nat) (skip_first_result : Bool) :
    (∀ e ∈ (evaluate qrels results k_values true skip_first_result).results_after,
      ∀ p ∈ e.2, p.1 ≠ e.1) ∧
    (∀ e ∈ results, ∀ p ∈ e.2, p.1 ≠ e.1 →
      ∃ rels, (e.1, rels) ∈
          (evaluate qrels results k_values true skip_first_result).results_after ∧
        p ∈ rels) := by
  constructor
  · intro e he p hp
    have he2 : e ∈ stripSelf results := he
    rcases List.mem_map.mp he2 with ⟨qr, _, rfl⟩
    have := (List.mem_filter.mp hp).2
    simpa using this
  · intro e he p hp hne
    refine ⟨e.2.filter (fun p => p.1 ≠ e.1), ?_, ?_⟩
    · show (e.1, e.2.filter (fun p => p.1 ≠ e.1)) ∈ stripSelf results
      exact List.mem_map.mpr ⟨e, he, rfl⟩
    · exact List.mem_filter.mpr ⟨hp, decide_eq_true hne⟩

/-- Concrete run of the C4 theorem: the self-candidate of q1 is removed and
the other candidate survives. -/
theorem evaluate_ignores_identical_ids_witness :
    ("d" : String) ≠ "q1" ∧
    ∃ rels, ("q1", rels) ∈
        (evaluate [] [("q1", [("q1", 1), ("d", 2)])] [1] true false).results_after ∧
      ("d", (2 : Int)) ∈ rels :=
  ⟨(evaluate_ignores_identical_ids [] [("q1", [("q1", 1), ("d", 2)])] [1] false).1
      ("q1", [("d", 2)]) (by decide) ("d", 2) (by decide),
    (evaluate_ignores_identical_ids [] [("q1", [("q1", 1), ("d", 2)])] [1] false).2
      ("q1", [("q1", 1), ("d", 2)]) (by decide) ("d", 2) (by decide) (by decide)⟩

/-- Claim C7 is false on the code: with ignore_identical_ids=True, evaluate
pops the self-candidates from the caller-owned results dict in place, so
the mapping observed after the call differs from the one passed in. -/
theorem evaluate_mutates_results_counterexample :
    (evaluate [] [("q1", [("q1", 5)])] [1] true false).results_after ≠
      [("q1", [("q1", 5)])] := by decide

/-- Claim C7 (amended): evaluate leaves the caller-visible results mapping
unchanged if and only if ignore_identical_ids is false or no query lists
its own id among its candidates; otherwise the self-candidates are removed
from the mapping in place. -/
theorem evaluate_results_unchanged_iff (qrels : Qrels) (results : Ranking)
    (k_values : List Nat) (ignore_identical_ids skip_first_result : Bool) :
    (evaluate qrels results k_values ignore_identical_ids
        skip_first_result).results_after = results ↔
      (ignore_identical_ids = false ∨
        ∀ e ∈ results, ∀ p ∈ e.2, p.1 ≠ e.1) := by
  show scoredResults results ignore_identical_ids = results ↔ _
  cases ignore_identical_ids with
  | false => simp [scoredResults]
  | true =>
      rw [scoredResults, if_pos rfl]
      rw [stripSelf_eq_self_iff]
      simp

/-- Concrete run of the amended C7 theorem: without self-candidates the
mapping is returned unchanged even with ignore_identical_ids=True. -/
theorem evaluate_results_unchanged_iff_witness :
    (evaluate [] [("q1", [("d1", 1)])] [1] true false).results_after =
      [("q1", [("d1", 1)])] :=
  (evaluate_results_unchanged_iff [] [("q1", [("d1", 1)])] [1] true false).mpr
    (Or.inr (by decide))

/-- Claim C10: the CV-style intersection uses the set of ALL judged ids of
the query, not only the positively graded ones: a zero-graded judged
document among the top-k ranked candidates yields per-query CV_Recall@k =
1.0 in evaluate, and likewise a value of 1.0 in calculate_cv_style_recall. -/
theorem cv_counts_zero_graded_docs (qrels : Qrels) (results : Ranking)
    (k : Nat) (q d : String) (qr rels : List (String × Int)) :
    (List.lookup q qrels = some qr → List.lookup q results = some rels →
      (d, 0) ∈ qr → d ∈ ((pySorted rels).map Prod.fst).take k →
      perQueryCV qrels results false false k q = 1) ∧
    ((q, qr) ∈ qrels → (d, 0) ∈ qr →
      d ∈ ((lookupD results q []).map Prod.fst).take k →
      (q, (1 : ℚ)) ∈ calculate_cv_style_recall qrels results k) := by
  constructor
  · intro hq hr hjud htop
    rw [perQueryCV, show scoredResults results false = results from rfl,
      show lookupD qrels q [] = qr from by simp [lookupD, hq],
      show lookupD results q [] = rels from by simp [lookupD, hr]]
    have hcond : ((evalTopDocs rels false).take k).any
        (fun x => x ∈ qr.map Prod.fst) = true :=
      List.any_eq_true.mpr
        ⟨d, htop, decide_eq_true (List.mem_map.mpr ⟨(d, 0), hjud, rfl⟩)⟩
    rw [cv_recall_at, if_pos hcond]
  · intro hqr hjud htop
    have : (q, if (((lookupD results q []).map Prod.fst).take k).any
        (fun x => x ∈ qr.map Prod.fst) then (1 : ℚ) else 0) ∈
        calculate_cv_style_recall qrels results k :=
      List.mem_map.mpr ⟨(q, qr), hqr, rfl⟩
    rwa [if_pos (List.any_eq_true.mpr
      ⟨d, htop, decide_eq_true (List.mem_map.mpr ⟨(d, 0), hjud, rfl⟩)⟩)] at this

/-- Concrete run of the C10 theorem: d1 is judged with grade 0 and ranked
first; both CV computations yield 1. -/
theorem cv_counts_zero_graded_docs_witness :
    perQueryCV [("q1", [("d1", 0)])] [("q1", [("d1", 9)])] false false 1 "q1" = 1 ∧
    ("q1", (1 : ℚ)) ∈
      calculate_cv_style_recall [("q1", [("d1", 0)])] [("q1", [("d1", 9)])] 1 :=
  ⟨(cv_counts_zero_graded_docs [("q1", [("d1", 0)])] [("q1", [("d1", 9)])] 1
      "q1" "d1" [("d1", 0)] [("d1", 9)]).1 rfl rfl (by decide) (by decide),
    (cv_counts_zero_graded_docs [("q1", [("d1", 0)])] [("q1", [("d1", 9)])] 1
      "q1" "d1" [("d1", 0)] [("d1", 9)]).2 (by decide) (by decide) (by decide)⟩

end ClaimEvaluate

section ClaimCallCache

/-- Claim C9 is wrong on the code (the code is the bug): the guard of
lines 316-317 tests the truthiness of self.retriever, which __init__
unconditionally set to an Any2AnyDenseRetrievalExactSearch instance; an
instance is always truthy, so even with no retriever model attached the
call never raises MissingRetrieverError and search is invoked with the
absent model (failing only when the model is used). -/
theorem call_guard_never_fires {M : Type} (retriever : Option M) :
    anyToAnyCall retriever = .searchInvoked retriever := rfl

/-- Claim C6 is wrong on the code (the code is the bug): the existence test
of line 271 checks the remote reference string itself as a local path, not
the derived cache path, so the file is downloaded again although the
derived cache path exists; and if the reference string did exist as a local
path, line 283 reads the unassigned dest_file local and raises NameError. -/
theorem load_redownloads_despite_cache :
    (load_results_file
        ⟨fun p => p = "results/cached_predictions--example.com--res.json",
          fun _ => Json.obj [("q1", Json.obj [])]⟩
        "https://example.com/res.json").downloads =
      [⟨"https://example.com/res.json",
        "results/cached_predictions--example.com--res.json"⟩] ∧
    (load_results_file ⟨fun _ => true, fun _ => Json.null⟩
        "https://example.com/res.json").outcome = .nameError := by
  constructor
  · rfl
  · rfl

/-- Claim C8 is false on the code: the asserts of lines 287-288 inspect only
the FIRST value of the parsed mapping, so a mapping whose first value is a
mapping is accepted even when a later value is not a mapping; it is not a
mapping of mappings yet no MalformedCacheError is raised. -/
theorem load_malformed_iff_counterexample :
    (load_results_file
        ⟨fun _ => false,
          fun _ => Json.obj [("a", Json.obj []), ("b", Json.num 5)]⟩
        "cache.json").outcome = .ok ∧
    (Json.obj [("a", Json.obj []), ("b", Json.num 5)]).isMappingOfMappings
      = false := ⟨rfl, rfl⟩

/-- Claim C8 (amended): loading a local previous-results file succeeds iff
the parsed structure is a mapping with at least one key whose FIRST value
is itself a mapping; a non-mapping fails the first assert, an empty mapping
raises an index error, and values after the first are never checked. -/
theorem load_malformed_iff_amended (fs : CacheFS) (path : String)
    (hlocal : containsSub "https://".data path.data = false) :
    (load_results_file fs path).outcome = .ok ↔
      ∃ key v rest, fs.parsed path = Json.obj ((key, v) :: rest) ∧
        v.isObj = true := by
  rw [load_results_file, if_neg (by rw [hlocal]; exact Bool.false_ne_true)]
  show checkPreviousResults (fs.parsed path) = .ok ↔ _
  cases hj : fs.parsed path with
  | obj fields =>
      cases fields with
      | nil =>
          simp only [checkPreviousResults]
          constructor
          · intro h
            exact absurd h (by simp)
          · rintro ⟨key, v, rest, hcontra, -⟩
            exact absurd (Json.obj.inj hcontra) (by simp)
      | cons kv rest =>
          simp only [checkPreviousResults]
          constructor
          · intro h
            by_cases hv : kv.2.isObj = true
            · exact ⟨kv.1, kv.2, rest, rfl, hv⟩
            · rw [if_neg hv] at h
              exact absurd h (by simp)
          · rintro ⟨key, v, rest2, heq, hv⟩
            have h1 : kv = (key, v) ∧ rest = rest2 := by
              have := Json.obj.inj heq
              exact ⟨(List.cons_eq_cons.mp this).1, (List.cons_eq_cons.mp this).2⟩
            rw [if_pos (by rw [h1.1]; exact hv)]
  | arr elems =>
      simp only [checkPreviousResults]
      constructor
      · intro h; exact absurd h (by simp)
      · rintro ⟨key, v, rest, hcontra, -⟩; cases hcontra
  | num n =>
      simp only [checkPreviousResults]
      constructor
      · intro h; exact absurd h (by simp)
      · rintro ⟨key, v, rest, hcontra, -⟩; cases hcontra
  | str s =>
      simp only [checkPreviousResults]
      constructor
      · intro h; exact absurd h (by simp)
      · rintro ⟨key, v, rest, hcontra, -⟩; cases hcontra
  | bool b =>
      simp only [checkPreviousResults]
      constructor
      · intro h; exact absurd h (by simp)
      · rintro ⟨key, v, rest, hcontra, -⟩; cases hcontra
  | null =>
      simp only [checkPreviousResults]
      constructor
      · intro h; exact absurd h (by simp)
      · rintro ⟨key, v, rest, hcontra, -⟩; cases hcontra

/-- Concrete run of the amended C8 theorem: a mapping whose first value is
a mapping is accepted. -/
theorem load_malformed_iff_amended_witness :
    (load_results_file
        ⟨fun _ => false, fun _ => Json.obj [("a", Json.obj [])]⟩
        "cache.json").outcome = .ok :=
  (load_malformed_iff_amended
      ⟨fun _ => false, fun _ => Json.obj [("a", Json.obj [])]⟩ "cache.json"
      (by decide)).mpr ⟨"a", Json.obj [], [], rfl, rfl⟩

end ClaimCallCache

end AnyToAny
